import Mathlib

/-
  Verification development for rtnormC (truncated-Gaussian sampler).

  Shallow embedding of src/rtnorm.c.  C doubles are modelled as real
  numbers; the GSL generator is modelled as two oracle streams
  (uniform draws and ziggurat standard-normal draws) indexed by the
  number of draws consumed so far; the unbounded rejection loops are
  modelled with an explicit fuel parameter, `none` meaning that the
  loop has not yet accepted within the given fuel.

  The numeric tables x, yu, ncell live in rtnorm_data.h, which is not
  part of the sources; a `Table` is therefore kept abstract and its
  properties, where needed, are hypotheses modelled from the spec
  (section 3: x strictly increasing, ncell yields the containing cell
  or the sentinel, xmax is the rightmost table boundary).
-/

open scoped Classical

namespace Rtnorm

/-- Sentinel index of the right tail (`int N = 4001` in rtnorm.c). -/
def N : ℤ := 4001

/-- Modelled from the spec: the table of cell boundaries has entries
x[0..N] (cells 0..N-1 plus the sentinel right tail beyond x[N]), so
`xsize = sizeof(x)/sizeof(double)` is N + 1 = 4002.  rtnorm_data.h,
which defines the array, is not part of the sources. -/
def xsize : ℤ := 4002

/-- Left bound of the table region (`xmin` in rtnorm). -/
noncomputable def xmin : ℝ := -2.00443204036

/-- Right bound of the table region (`xmax` in rtnorm). -/
noncomputable def xmax : ℝ := 3.48672170399

/-- Minimal cell count below which the rejection fallback is used. -/
def kmin : ℤ := 5

/-- Inverse of the minimal interval range h (`INVH` in rtnorm). -/
noncomputable def INVH : ℝ := 1631.73284006

/-- Index offset `I0 = -floor(x(0)/h)`. -/
def I0 : ℤ := 3271

/-- `ALPHA = log(2*pi)`. -/
noncomputable def ALPHA : ℝ := 1.837877066409345

/-- The precomputed table delivered by rtnorm_data.h: cell boundaries
x, per-cell density upper bounds yu, and the quantized-position-to-cell
index ncell.  Arrays are modelled as total functions on ℤ. -/
structure Table where
  x : ℤ → ℝ
  yu : ℤ → ℝ
  ncell : ℤ → ℤ

/-- Lower density envelope for cell k (function `yl` of rtnorm.c). -/
noncomputable def yl (tab : Table) (k : ℤ) : ℝ :=
  if k = 0 then 0.053513975472
  else if k = N - 1 then 0.000914116389555
  else if k ≤ 1953 then tab.yu (k - 1)
  else tab.yu (k + 1)

/-- Rejection loop of `rtexp` (truncated exponential proposal).  One
iteration consumes the two uniforms at positions n and n+1; `none`
means the loop has not accepted within `fuel` iterations. -/
noncomputable def rtexpLoop (uni : ℕ → ℝ) (a b : ℝ) : ℕ → ℕ → Option ℝ
  | 0, _ => none
  | fuel + 1, n =>
    let twoasq := 2 * a * a
    let expab := Real.exp (-a * (b - a)) - 1
    let z := Real.log (1 + uni n * expab)
    let e := -Real.log (uni (n + 1))
    if twoasq * e ≤ z * z then rtexpLoop uni a b fuel (n + 2)
    else some (a - z / a)

/-- Left-tail rejection loop of rtnorm (Gaussian proposal via
`gsl_ran_gaussian_ziggurat`): retry until the draw lands in [a,b]. -/
noncomputable def gaussLoop (gau : ℕ → ℝ) (a b : ℝ) : ℕ → ℕ → Option ℝ
  | 0, _ => none
  | fuel + 1, n =>
    let r := gau n
    if r ≥ a ∧ r ≤ b then some r else gaussLoop gau a b fuel (n + 1)

/-- Chopin's table-driven acceptance/rejection loop (the `while(!stop)`
loop of rtnorm.c).  Each iteration first draws the cell index k; the
three branches consume the further uniforms exactly as the C code
does (right-tail sentinel: two; boundary cells: one, plus one more
only when sim lands in [a,b]; interior cells: one, plus one more only
on the slow path). -/
noncomputable def bulkLoop (tab : Table) (uni : ℕ → ℝ) (a b : ℝ) (ka kb : ℤ) :
    ℕ → ℕ → Option ℝ
  | 0, _ => none
  | fuel + 1, n =>
    let k : ℤ := ⌊uni n * ((kb : ℝ) - (ka : ℝ) + 1)⌋ + ka
    if k = N then
      let lbound := tab.x (xsize - 1)
      let z := -Real.log (uni (n + 1)) / lbound
      let e := -Real.log (uni (n + 2))
      if z * z ≤ 2 * e ∧ z < b - lbound then some (lbound + z)
      else bulkLoop tab uni a b ka kb fuel (n + 3)
    else if k ≤ ka + 1 ∨ (k ≥ kb - 1 ∧ b < xmax) then
      let sim := tab.x k + (tab.x (k + 1) - tab.x k) * uni (n + 1)
      if sim ≥ a ∧ sim ≤ b then
        let simy := tab.yu k * uni (n + 2)
        if simy < yl tab k ∨ sim * sim + 2 * Real.log simy + ALPHA < 0 then
          some sim
        else bulkLoop tab uni a b ka kb fuel (n + 3)
      else bulkLoop tab uni a b ka kb fuel (n + 2)
    else
      let u := uni (n + 1)
      let simy := tab.yu k * u
      let d := tab.x (k + 1) - tab.x k
      let ylk := yl tab k
      if simy < ylk then some (tab.x k + u * d * tab.yu k / ylk)
      else
        let sim := tab.x k + d * uni (n + 2)
        if sim * sim + 2 * Real.log simy + ALPHA < 0 then some sim
        else bulkLoop tab uni a b ka kb fuel (n + 3)

/-- Result of one rtnorm call: `invalid` models the `exit(1)` taken
when a ≥ b; `timeout` is the fuel-exhaustion artifact of the
embedding; `ok r` is a returned sample. -/
inductive RtnResult where
  | invalid : RtnResult
  | timeout : RtnResult
  | ok : ℝ → RtnResult

/-- Lift a loop outcome to a call result. -/
def ofOption : Option ℝ → RtnResult
  | none => RtnResult.timeout
  | some r => RtnResult.ok r

/-- Negate an accepted sample (the symmetry fold `r = -rtnorm(...)`). -/
def negResult : RtnResult → RtnResult
  | RtnResult.ok r => RtnResult.ok (-r)
  | e => e

/-- Apply a function to an accepted sample, leaving errors alone. -/
def mapOk (f : ℝ → ℝ) : RtnResult → RtnResult
  | RtnResult.ok r => RtnResult.ok (f r)
  | e => e

/-- The function `rtnorm` of rtnorm.c, with the recursion depth of the
symmetry fold made explicit (`depth`); the C recursion always has
depth ≤ 1, so any depth ≥ 2 gives the behaviour of the C function. -/
noncomputable def rtnormAux (tab : Table) (uni gau : ℕ → ℝ) :
    ℕ → ℝ → ℝ → ℝ → ℝ → ℕ → RtnResult
  | 0, _, _, _, _, _ => RtnResult.timeout
  | depth + 1, a0, b0, mu, sigma, fuel =>
    let a := if mu ≠ 0 ∨ sigma ≠ 1 then (a0 - mu) / sigma else a0
    let b := if mu ≠ 0 ∨ sigma ≠ 1 then (b0 - mu) / sigma else b0
    let res :=
      if a ≥ b then RtnResult.invalid
      else if |a| > |b| then
        negResult (rtnormAux tab uni gau depth (-b) (-a) 0 1 fuel)
      else if a > xmax then ofOption (rtexpLoop uni a b fuel 0)
      else if a < xmin then ofOption (gaussLoop gau a b fuel 0)
      else
        let ka := tab.ncell (I0 + ⌊a * INVH⌋)
        let kb := if b ≥ xmax then N else tab.ncell (I0 + ⌊b * INVH⌋)
        if |kb - ka| < kmin then ofOption (rtexpLoop uni a b fuel 0)
        else ofOption (bulkLoop tab uni a b ka kb fuel 0)
    mapOk (fun r => if mu ≠ 0 ∨ sigma ≠ 1 then r * sigma + mu else r) res

/-- `rtnorm(gen, a, b, mu, sigma)`: depth 2 is enough because the
symmetry fold recurses at most once. -/
noncomputable def rtnorm (tab : Table) (uni gau : ℕ → ℝ)
    (a b mu sigma : ℝ) (fuel : ℕ) : RtnResult :=
  rtnormAux tab uni gau 2 a b mu sigma fuel

/-- Which sampler a call is routed to.  `fold` records the symmetry
recursion, the other constructors record the sampler reached and the
standardized bounds (and cell indices) it is handed. -/
inductive Route where
  | invalid : Route
  | depthOut : Route
  | fold : Route → Route
  | tailExp : ℝ → ℝ → Route
  | gaussTail : ℝ → ℝ → Route
  | narrowExp : ℝ → ℝ → Route
  | bulk : ℝ → ℝ → ℤ → ℤ → Route

/-- The branch structure of rtnorm (lines 64-115 of rtnorm.c), with the
sampling loops replaced by markers recording the dispatch decision. -/
noncomputable def dispatch (tab : Table) : ℕ → ℝ → ℝ → ℝ → ℝ → Route
  | 0, _, _, _, _ => Route.depthOut
  | depth + 1, a0, b0, mu, sigma =>
    let a := if mu ≠ 0 ∨ sigma ≠ 1 then (a0 - mu) / sigma else a0
    let b := if mu ≠ 0 ∨ sigma ≠ 1 then (b0 - mu) / sigma else b0
    if a ≥ b then Route.invalid
    else if |a| > |b| then Route.fold (dispatch tab depth (-b) (-a) 0 1)
    else if a > xmax then Route.tailExp a b
    else if a < xmin then Route.gaussTail a b
    else
      let ka := tab.ncell (I0 + ⌊a * INVH⌋)
      let kb := if b ≥ xmax then N else tab.ncell (I0 + ⌊b * INVH⌋)
      if |kb - ka| < kmin then Route.narrowExp a b
      else Route.bulk a b ka kb

/-- The bounds handed to rtexp when the deep-right-tail branch
(`a > xmax`) is taken, possibly under the symmetry fold. -/
def tailArg : Route → Option (ℝ × ℝ)
  | Route.invalid => none
  | Route.depthOut => none
  | Route.fold r => tailArg r
  | Route.tailExp a b => some (a, b)
  | Route.gaussTail _ _ => none
  | Route.narrowExp _ _ => none
  | Route.bulk _ _ _ _ => none

/-- Whether a route ends at the Gaussian-proposal left-tail sampler. -/
def isGaussRoute : Route → Bool
  | Route.invalid => false
  | Route.depthOut => false
  | Route.fold _ => false
  | Route.tailExp _ _ => false
  | Route.gaussTail _ _ => true
  | Route.narrowExp _ _ => false
  | Route.bulk _ _ _ _ => false

/-- Modelled from the spec (section 3): `ncell` maps a quantized
position inside [xmin, xmax] to the index of the table cell containing
it.  Stated at a single point v. -/
def cellOK (tab : Table) (v : ℝ) : Prop :=
  xmin ≤ v → v ≤ xmax →
    tab.x (tab.ncell (I0 + ⌊v * INVH⌋)) ≤ v ∧
      v ≤ tab.x (tab.ncell (I0 + ⌊v * INVH⌋) + 1)

/-- A concrete table used to instantiate hypotheses in witnesses:
boundaries one unit apart ending at xmax, flat density bound 1, and a
constant cell lookup. -/
noncomputable def tabW : Table :=
  Table.mk (fun k => (k : ℝ) - 4001 + xmax) (fun _ => 1) (fun _ => 4000)

/-- A uniform stream that always yields 1/2. -/
noncomputable def uHalf : ℕ → ℝ := fun _ => 1 / 2

/-- A ziggurat stream that always yields 0. -/
def gZero : ℕ → ℝ := fun _ => 0

/-- The entry scaling always computes (v - mu) / sigma: when the guard
`mu != 0 || sigma != 1` is false we have mu = 0 and sigma = 1, and
(v - 0) / 1 = v. -/
lemma scale_def (v mu sigma : ℝ) :
    (if mu ≠ 0 ∨ sigma ≠ 1 then (v - mu) / sigma else v) = (v - mu) / sigma := by
  split_ifs with h
  · rfl
  · push_neg at h
    rw [h.1, h.2, sub_zero, div_one]

lemma mapOk_id (e : RtnResult) : mapOk (fun r => r) e = e := by
  cases e <;> rfl

lemma mapOk_scale (mu sigma : ℝ) (e : RtnResult) :
    mapOk (fun r => if mu ≠ 0 ∨ sigma ≠ 1 then r * sigma + mu else r) e =
      mapOk (fun r => r * sigma + mu) e := by
  cases e with
  | ok r =>
    simp only [mapOk]
    split_ifs with h
    · rfl
    · push_neg at h
      rw [h.1, h.2, mul_one, add_zero]
  | invalid => rfl
  | timeout => rfl

lemma ofOption_ok (o : Option ℝ) (r : ℝ) :
    ofOption o = RtnResult.ok r ↔ o = some r := by
  cases o <;> simp [ofOption]

lemma ofOption_ne_invalid (o : Option ℝ) : ofOption o ≠ RtnResult.invalid := by
  cases o <;> simp [ofOption]

lemma mapOk_eq_invalid (f : ℝ → ℝ) (e : RtnResult) :
    mapOk f e = RtnResult.invalid ↔ e = RtnResult.invalid := by
  cases e <;> simp [mapOk]

lemma negResult_eq_ok (e : RtnResult) (r : ℝ) :
    negResult e = RtnResult.ok r ↔ e = RtnResult.ok (-r) := by
  cases e with
  | ok s =>
    simp only [negResult, RtnResult.ok.injEq]
    constructor
    · intro h; rw [← h, neg_neg]
    · intro h; rw [h, neg_neg]
  | invalid => simp [negResult]
  | timeout => simp [negResult]

lemma negResult_ne_invalid (e : RtnResult)
    (he : e ≠ RtnResult.invalid) : negResult e ≠ RtnResult.invalid := by
  cases e <;> simp_all [negResult]

/-- With a = 0 the rtexp loop never accepts: twoasq = 0 and
z = log(1 + u * expm1(0)) = 0, so the loop condition
`twoasq*e <= z*z` is 0 <= 0 at every iteration. -/
lemma rtexpLoop_zero (uni : ℕ → ℝ) (b : ℝ) :
    ∀ fuel n, rtexpLoop uni 0 b fuel n = none := by
  intro fuel
  induction fuel with
  | zero => intro n; rfl
  | succ f ih =>
    intro n
    simp only [rtexpLoop, neg_zero, zero_mul, mul_zero, Real.exp_zero, sub_self,
      add_zero, Real.log_one, le_refl, if_true, ih]

/-- Every sample accepted by the Gaussian-proposal left-tail loop lies
in [a, b] (the loop condition is exactly a <= r <= b). -/
lemma gaussLoop_mem (gau : ℕ → ℝ) (a b r : ℝ) :
    ∀ fuel n, gaussLoop gau a b fuel n = some r → a ≤ r ∧ r ≤ b := by
  intro fuel
  induction fuel with
  | zero => intro n h; exact absurd h (by simp [gaussLoop])
  | succ f ih =>
    intro n h
    simp only [gaussLoop] at h
    split_ifs at h with hc
    · cases h
      exact hc
    · exact ih (n + 1) h

/-- The lower envelope is positive whenever all yu entries are. -/
lemma yl_pos (tab : Table) (hyu : ∀ k, 0 < tab.yu k) (k : ℤ) :
    0 < yl tab k := by
  unfold yl
  split_ifs
  · norm_num
  · norm_num
  · exact hyu _
  · exact hyu _

/-- Bounds on the value returned by one rtexp acceptance, for nonzero
a: with u in [0,1), z = log(1 + u*expm1(-a(b-a))) lies strictly
between -a(b-a) and 0 (inclusive of 0) when a > 0, and in
[0, -a(b-a)) when a < 0, so a - z/a lies in [a, b). -/
lemma rtexp_value_mem (a b u : ℝ) (ha : a ≠ 0) (hab : a < b)
    (hu0 : 0 ≤ u) (hu1 : u < 1) :
    a ≤ a - Real.log (1 + u * (Real.exp (-a * (b - a)) - 1)) / a ∧
      a - Real.log (1 + u * (Real.exp (-a * (b - a)) - 1)) / a ≤ b := by
  set E := Real.exp (-a * (b - a)) - 1 with hE
  set z := Real.log (1 + u * E) with hz
  have hEexp : Real.exp (-a * (b - a)) = 1 + E := by rw [hE]; ring
  rcases lt_or_gt_of_ne ha with hneg | hpos
  · -- a < 0: E > 0, 0 ≤ z < -a*(b-a)
    have hEpos : 0 < E := by
      have h1 : Real.exp 0 < Real.exp (-a * (b - a)) :=
        Real.exp_lt_exp.mpr (by nlinarith)
      rw [Real.exp_zero] at h1
      rw [hE]; linarith
    have harg1 : 1 ≤ 1 + u * E := by nlinarith
    have hargE : 1 + u * E < 1 + E := by nlinarith
    have hz0 : 0 ≤ z := Real.log_nonneg harg1
    have hzlt : z < -a * (b - a) := by
      have h1 : Real.log (1 + u * E) < Real.log (1 + E) :=
        Real.log_lt_log (by linarith) hargE
      rw [← hEexp, Real.log_exp] at h1
      exact h1
    constructor
    · have : z / a ≤ 0 := div_nonpos_of_nonneg_of_nonpos hz0 hneg.le
      linarith
    · have h2 : z / (-a) < b - a := by
        rw [div_lt_iff₀ (by linarith : (0:ℝ) < -a)]
        nlinarith
      have h3 : -(z / a) < b - a := by
        rw [div_neg] at h2
        exact h2
      linarith
  · -- a > 0: -1 < E < 0, -a*(b-a) < z ≤ 0
    have hEneg : E < 0 := by
      have h1 : Real.exp (-a * (b - a)) < Real.exp 0 :=
        Real.exp_lt_exp.mpr (by nlinarith)
      rw [Real.exp_zero] at h1
      rw [hE]; linarith
    have hEgt : -1 < E := by
      have := Real.exp_pos (-a * (b - a))
      rw [hE]; linarith
    have hargpos : 0 < 1 + u * E := by nlinarith
    have harg1 : 1 + u * E ≤ 1 := by nlinarith
    have hargE : 1 + E < 1 + u * E := by nlinarith
    have hz0 : z ≤ 0 := Real.log_nonpos hargpos.le harg1
    have hzgt : -a * (b - a) < z := by
      have h1 : Real.log (1 + E) < Real.log (1 + u * E) :=
        Real.log_lt_log (by rw [← hEexp]; exact Real.exp_pos _) hargE
      rw [← hEexp, Real.log_exp] at h1
      exact h1
    constructor
    · have : z / a ≤ 0 := div_nonpos_of_nonpos_of_nonneg hz0 hpos.le
      linarith
    · have h2 : -(z / a) < b - a := by
        rw [← neg_div, div_lt_iff₀ hpos]
        nlinarith
      linarith

/-- Every sample returned by the rtexp loop with a != 0 and a < b lies
in [a, b]. -/
lemma rtexpLoop_mem (uni : ℕ → ℝ) (a b r : ℝ)
    (ha : a ≠ 0) (hab : a < b) (hu : ∀ m, 0 ≤ uni m ∧ uni m < 1) :
    ∀ fuel n, rtexpLoop uni a b fuel n = some r → a ≤ r ∧ r ≤ b := by
  intro fuel
  induction fuel with
  | zero => intro n h; exact absurd h (by simp [rtexpLoop])
  | succ f ih =>
    intro n h
    simp only [rtexpLoop] at h
    split_ifs at h with hc
    · exact ih (n + 2) h
    · cases h
      exact rtexp_value_mem a b (uni n) ha hab (hu n).1 (hu n).2

/-- Every sample accepted by Chopin's bulk loop lies in [a, b], given
the spec-modelled table facts actually used: x strictly increasing,
yu positive, x[xsize-1] = xmax, a <= xmax, a inside cell ka
(a <= x[ka+1]), x[kb] <= b when b < xmax, and ka <= kb <= N. -/
lemma bulkLoop_mem (tab : Table) (uni : ℕ → ℝ) (a b r : ℝ) (ka kb : ℤ)
    (hu : ∀ m, 0 ≤ uni m ∧ uni m < 1)
    (hmono : ∀ i j : ℤ, i < j → tab.x i < tab.x j)
    (hyu : ∀ k, 0 < tab.yu k)
    (hxN : tab.x (xsize - 1) = xmax)
    (haxm : a ≤ xmax)
    (hka1 : a ≤ tab.x (ka + 1))
    (hkbb : b < xmax → tab.x kb ≤ b)
    (hkak : ka ≤ kb)
    (hkbN : kb ≤ N) :
    ∀ fuel n, bulkLoop tab uni a b ka kb fuel n = some r → a ≤ r ∧ r ≤ b := by
  have hml : ∀ i j : ℤ, i ≤ j → tab.x i ≤ tab.x j := by
    intro i j hij
    rcases lt_or_eq_of_le hij with hlt | heq
    · exact (hmono i j hlt).le
    · rw [heq]
  have hxsN : xsize - 1 = N := by norm_num [xsize, N]
  have hxmaxpos : (0:ℝ) < xmax := by norm_num [xmax]
  intro fuel
  induction fuel with
  | zero => intro n h; exact absurd h (by simp [bulkLoop])
  | succ f ih =>
    intro n h
    simp only [bulkLoop] at h
    set K := ⌊uni n * ((kb : ℝ) - (ka : ℝ) + 1)⌋ + ka with hKdef
    have hKkb : K ≤ kb := by
      have hMpos : (0:ℝ) < (kb : ℝ) - (ka : ℝ) + 1 := by
        have : (ka : ℝ) ≤ (kb : ℝ) := Int.cast_le.mpr hkak
        linarith
      have hlt : uni n * ((kb : ℝ) - (ka : ℝ) + 1) <
          ((kb - ka + 1 : ℤ) : ℝ) := by
        have h1 : uni n * ((kb : ℝ) - (ka : ℝ) + 1) <
            1 * ((kb : ℝ) - (ka : ℝ) + 1) :=
          mul_lt_mul_of_pos_right (hu n).2 hMpos
        push_cast
        linarith
      have h2 : ⌊uni n * ((kb : ℝ) - (ka : ℝ) + 1)⌋ < kb - ka + 1 :=
        Int.floor_lt.mpr hlt
      omega
    by_cases hKN : K = N
    · -- right-tail sentinel cell
      rw [if_pos hKN] at h
      split_ifs at h with hacc
      · cases h
        have hlogle : Real.log (uni (n + 1)) ≤ 0 :=
          Real.log_nonpos (hu (n + 1)).1 (hu (n + 1)).2.le
        have hz : 0 ≤ -Real.log (uni (n + 1)) / tab.x (xsize - 1) := by
          apply div_nonneg (by linarith)
          rw [hxN]
          exact hxmaxpos.le
        constructor
        · have : a ≤ tab.x (xsize - 1) := by rw [hxN]; exact haxm
          linarith
        · have := hacc.2
          linarith
      · exact ih (n + 3) h
    · rw [if_neg hKN] at h
      by_cases hKb : K ≤ ka + 1 ∨ (K ≥ kb - 1 ∧ b < xmax)
      · -- boundary cells: explicit [a,b] membership test
        rw [if_pos hKb] at h
        split_ifs at h with hmem hsq
        · cases h
          exact hmem
        · exact ih (n + 3) h
        · exact ih (n + 2) h
      · -- interior cells
        rw [if_neg hKb] at h
        push_neg at hKb
        obtain ⟨hKlo, hKhi⟩ := hKb
        have hxka : a ≤ tab.x K := by
          have : tab.x (ka + 1) ≤ tab.x K := hml _ _ (by omega)
          linarith
        have hxkb : tab.x (K + 1) ≤ b := by
          by_cases hbx : b < xmax
          · have hKlt : K < kb - 1 := by
              rcases lt_or_le K (kb - 1) with hlt | hge
              · exact hlt
              · exact absurd hbx (not_lt.mpr (hKhi hge))
            have : tab.x (K + 1) ≤ tab.x kb := hml _ _ (by omega)
            have := hkbb hbx
            linarith
          · push_neg at hbx
            have hKN1 : K + 1 ≤ N := by omega
            have : tab.x (K + 1) ≤ tab.x (xsize - 1) := by
              rw [hxsN]; exact hml _ _ hKN1
            rw [hxN] at this
            linarith
        have hd : 0 < tab.x (K + 1) - tab.x K := by
          have := hmono K (K + 1) (by omega)
          linarith
        have hylk : 0 < yl tab K := yl_pos tab hyu K
        split_ifs at h with hfast hslow
        · -- squeeze fast path
          cases h
          have hnum : 0 ≤ uni (n + 1) * (tab.x (K + 1) - tab.x K) *
              tab.yu K / yl tab K :=
            div_nonneg
              (mul_nonneg (mul_nonneg (hu (n + 1)).1 hd.le) (hyu K).le)
              hylk.le
          have hlt : uni (n + 1) * (tab.x (K + 1) - tab.x K) *
              tab.yu K / yl tab K < tab.x (K + 1) - tab.x K := by
            rw [div_lt_iff₀ hylk]
            nlinarith [mul_lt_mul_of_pos_left hfast hd]
          constructor
          · linarith
          · linarith
        · -- exact density test on a uniformly placed point
          cases h
          have h0 : 0 ≤ (tab.x (K + 1) - tab.x K) * uni (n + 2) :=
            mul_nonneg hd.le (hu (n + 2)).1
          have h1 : (tab.x (K + 1) - tab.x K) * uni (n + 2) <
              tab.x (K + 1) - tab.x K := by
            nlinarith [(hu (n + 2)).2]
          constructor
          · linarith
          · linarith
        · exact ih (n + 3) h

/-- Every sample produced by a standardized call (mu = 0, sigma = 1)
lies in [a, b], at every recursion depth. -/
lemma coreMem (tab : Table) (uni gau : ℕ → ℝ)
    (hu : ∀ m, 0 ≤ uni m ∧ uni m < 1)
    (hmono : ∀ i j : ℤ, i < j → tab.x i < tab.x j)
    (hyu : ∀ k, 0 < tab.yu k)
    (hxN : tab.x (xsize - 1) = xmax)
    (hnm : ∀ i j : ℤ, i ≤ j → tab.ncell i ≤ tab.ncell j) :
    ∀ depth (a b r : ℝ) (fuel : ℕ),
      cellOK tab a → cellOK tab b → cellOK tab (-a) → cellOK tab (-b) →
      rtnormAux tab uni gau depth a b 0 1 fuel = RtnResult.ok r →
      a ≤ r ∧ r ≤ b := by
  have hxNN : tab.x N = xmax := by
    have e : xsize - 1 = N := by norm_num [xsize, N]
    rw [← e]
    exact hxN
  intro depth
  induction depth with
  | zero =>
    intro a b r fuel _ _ _ _ h
    exact absurd h (by simp [rtnormAux])
  | succ d ih =>
    intro a b r fuel hca hcb hcna hcnb h
    have hcond : ¬((0:ℝ) ≠ 0 ∨ (1:ℝ) ≠ 1) := by norm_num
    simp only [rtnormAux, if_neg hcond] at h
    rw [mapOk_id] at h
    by_cases h1 : a ≥ b
    · rw [if_pos h1] at h
      exact RtnResult.noConfusion h
    rw [if_neg h1] at h
    push_neg at h1
    by_cases h2 : |a| > |b|
    · rw [if_pos h2] at h
      rw [negResult_eq_ok] at h
      have hinner := ih (-b) (-a) (-r) fuel hcnb hcna
        (by rw [neg_neg]; exact hcb) (by rw [neg_neg]; exact hca) h
      exact ⟨by linarith [hinner.2], by linarith [hinner.1]⟩
    rw [if_neg h2] at h
    by_cases h3 : a > xmax
    · rw [if_pos h3] at h
      rw [ofOption_ok] at h
      have ha0 : a ≠ 0 := by
        have : (0:ℝ) < xmax := by norm_num [xmax]
        exact ne_of_gt (by linarith)
      exact rtexpLoop_mem uni a b r ha0 h1 hu fuel 0 h
    rw [if_neg h3] at h
    by_cases h4 : a < xmin
    · rw [if_pos h4] at h
      rw [ofOption_ok] at h
      exact gaussLoop_mem gau a b r fuel 0 h
    rw [if_neg h4] at h
    push_neg at h3 h4
    set ka := tab.ncell (I0 + ⌊a * INVH⌋) with hka
    set kb := if b ≥ xmax then N else tab.ncell (I0 + ⌊b * INVH⌋) with hkb
    have hcaa := hca h4 h3
    by_cases h5 : |kb - ka| < kmin
    · rw [if_pos h5] at h
      rw [ofOption_ok] at h
      by_cases ha0 : a = 0
      · rw [ha0, rtexpLoop_zero] at h
        exact Option.noConfusion h
      · exact rtexpLoop_mem uni a b r ha0 h1 hu fuel 0 h
    · rw [if_neg h5] at h
      rw [ofOption_ok] at h
      have hkaN : ka ≤ N := by
        by_contra hc
        push_neg at hc
        have hlt : tab.x N < tab.x ka := hmono _ _ hc
        have := hcaa.1
        rw [hxNN] at hlt
        linarith
      by_cases hbx : b ≥ xmax
      · have hkbeq : kb = N := by rw [hkb, if_pos hbx]
        exact bulkLoop_mem tab uni a b r ka kb hu hmono hyu hxN h3 hcaa.2
          (fun hblt => absurd hblt (not_lt.mpr hbx))
          (by rw [hkbeq]; exact hkaN) (by rw [hkbeq]) fuel 0 h
      · push_neg at hbx
        have hkbeq : kb = tab.ncell (I0 + ⌊b * INVH⌋) := by
          rw [hkb, if_neg (not_le.mpr hbx)]
        have hcbb := hcb (by linarith) hbx.le
        have hkbb : tab.x kb ≤ b := by rw [hkbeq]; exact hcbb.1
        have hkbN : kb ≤ N := by
          by_contra hc
          push_neg at hc
          have hlt : tab.x N < tab.x kb := hmono _ _ hc
          rw [hxNN] at hlt
          linarith
        have hkak : ka ≤ kb := by
          rw [hka, hkbeq]
          apply hnm
          have hfl : ⌊a * INVH⌋ ≤ ⌊b * INVH⌋ := by
            apply Int.floor_le_floor
            have : (0:ℝ) < INVH := by norm_num [INVH]
            nlinarith
          omega
        exact bulkLoop_mem tab uni a b r ka kb hu hmono hyu hxN h3 hcaa.2
          (fun _ => hkbb) hkak hkbN fuel 0 h

/-- Per-call scale invariance: a call with parameters (mu, sigma)
produces exactly the rescaled result of the standardized call on
((a-mu)/sigma, (b-mu)/sigma) over the same draw streams. -/
lemma scale_shift (tab : Table) (uni gau : ℕ → ℝ) (d : ℕ)
    (a b mu sigma : ℝ) (fuel : ℕ) :
    rtnormAux tab uni gau d a b mu sigma fuel =
      mapOk (fun r => r * sigma + mu)
        (rtnormAux tab uni gau d ((a - mu) / sigma) ((b - mu) / sigma) 0 1 fuel) := by
  cases d with
  | zero => rfl
  | succ d =>
    have hcond : ¬((0:ℝ) ≠ 0 ∨ (1:ℝ) ≠ 1) := by norm_num
    simp only [rtnormAux, scale_def, if_neg hcond, sub_zero, div_one,
      mapOk_id, mapOk_scale]

/-- Claim C1 (amended): for every call rtnorm(gen, a, b, mu, sigma)
with a < b and sigma > 0, the returned value lies in [a, b], the
caller's truncation interval: on the standardized scale the accepted
sample r0 satisfies a' <= r0 <= b' for a' = (a-mu)/sigma,
b' = (b-mu)/sigma, in every branch, and the returned value
r0*sigma + mu therefore lies in [a'*sigma+mu, b'*sigma+mu] = [a, b].
(The claim's interval [a*sigma+mu, b*sigma+mu] is refuted by the
counterexample.)  The table facts are hypotheses modelled from the
spec, rtnorm_data.h not being part of the sources. -/
theorem rtnorm_sample_in_truncation_interval
    (tab : Table) (uni gau : ℕ → ℝ) (a b mu sigma : ℝ) (fuel : ℕ) (r : ℝ)
    (hu : ∀ m, 0 ≤ uni m ∧ uni m < 1)
    (hsigma : 0 < sigma) (hab : a < b)
    (hmono : ∀ i j : ℤ, i < j → tab.x i < tab.x j)
    (hyu : ∀ k, 0 < tab.yu k)
    (hxN : tab.x (xsize - 1) = xmax)
    (hnm : ∀ i j : ℤ, i ≤ j → tab.ncell i ≤ tab.ncell j)
    (hca : cellOK tab ((a - mu) / sigma))
    (hcb : cellOK tab ((b - mu) / sigma))
    (hcna : cellOK tab (-((a - mu) / sigma)))
    (hcnb : cellOK tab (-((b - mu) / sigma)))
    (h : rtnorm tab uni gau a b mu sigma fuel = RtnResult.ok r) :
    a ≤ r ∧ r ≤ b := by
  rw [rtnorm, scale_shift] at h
  rcases hres : rtnormAux tab uni gau 2 ((a - mu) / sigma) ((b - mu) / sigma)
      0 1 fuel with _ | _ | s
  · rw [hres] at h
    simp [mapOk] at h
  · rw [hres] at h
    simp [mapOk] at h
  · rw [hres] at h
    simp only [mapOk, RtnResult.ok.injEq] at h
    have hmem := coreMem tab uni gau hu hmono hyu hxN hnm 2 _ _ s fuel
      hca hcb hcna hcnb hres
    have ha' : (a - mu) / sigma * sigma + mu = a := by field_simp
    have hb' : (b - mu) / sigma * sigma + mu = b := by field_simp
    have h1 := mul_le_mul_of_nonneg_right hmem.1 hsigma.le
    have h2 := mul_le_mul_of_nonneg_right hmem.2 hsigma.le
    constructor
    · linarith
    · linarith

/-- Claim C1 witness: the call rtnorm(gen, 7, 13, 10, 1) standardizes
to (-3, 3), takes the left-tail Gaussian branch, accepts the first
ziggurat draw 0, and returns 0*1 + 10 = 10, which indeed lies in
[a, b] = [7, 13]. -/
theorem rtnorm_sample_in_truncation_interval_witness :
    (7:ℝ) ≤ 10 ∧ (10:ℝ) ≤ 13 := by
  have heval : rtnorm tabW uHalf gZero 7 13 10 1 1 = RtnResult.ok 10 := by
    rw [rtnorm]
    simp only [rtnormAux, gaussLoop, gZero, ofOption, mapOk, negResult, tabW]
    norm_num [xmax, xmin]
  exact rtnorm_sample_in_truncation_interval tabW uHalf gZero 7 13 10 1 1 10
    (fun m => by norm_num [uHalf])
    (by norm_num) (by norm_num)
    (by intro i j hij
        simp only [tabW]
        have : (i:ℝ) < j := Int.cast_lt.mpr hij
        linarith)
    (fun k => by norm_num [tabW])
    (by norm_num [tabW, xsize])
    (fun i j hij => by norm_num [tabW])
    (by intro h1 h2; exfalso; norm_num [xmin] at h1)
    (by intro h1 h2; norm_num [tabW, xmax])
    (by intro h1 h2; norm_num [tabW, xmax])
    (by intro h1 h2; exfalso; norm_num [xmin] at h1)
    heval

/-- Claim C1 counterexample: rtnorm(gen, 7, 13, 10, 1) returns 10
(first ziggurat draw 0 lands in the standardized interval [-3, 3] and
is rescaled to 10), and 10 does not lie in the claimed interval
[a*sigma+mu, b*sigma+mu] = [17, 23]. -/
theorem rtnorm_claimed_interval_counterexample :
    rtnorm tabW uHalf gZero 7 13 10 1 1 = RtnResult.ok 10 ∧
      ¬((7:ℝ) * 1 + 10 ≤ 10 ∧ (10:ℝ) ≤ 13 * 1 + 10) := by
  constructor
  · rw [rtnorm]
    simp only [rtnormAux, gaussLoop, gZero, ofOption, mapOk, negResult, tabW]
    norm_num [xmax, xmin]
  · intro hc
    norm_num at hc

/-- Claim C2 (refuted by the code): for a = 0, b = 1e-6, mu = 0,
sigma = 1 both bounds quantize to the same ncell slot (ka = kb), so
the dispatcher takes the narrow-interval fallback rtexp(0, 1e-6); with
a = 0 the rtexp loop condition 2a^2*e <= z^2 is 0 <= 0 at every
iteration, so the call never returns a sample -- for every table,
every uniform stream and every iteration budget, contradicting the
claim that the call terminates with a value in [0, 1e-6]. -/
theorem rtnorm_narrow_zero_never_returns (tab : Table) (uni gau : ℕ → ℝ)
    (fuel : ℕ) :
    rtnorm tab uni gau 0 (1 / 1000000) 0 1 fuel = RtnResult.timeout := by
  have hcond : ¬((0:ℝ) ≠ 0 ∨ (1:ℝ) ≠ 1) := by norm_num
  have hf1 : (⌊(1 / 1000000 : ℝ) * INVH⌋ : ℤ) = 0 := by
    rw [Int.floor_eq_zero_iff]
    constructor
    · norm_num [INVH]
    · norm_num [INVH]
  rw [rtnorm]
  simp only [rtnormAux, if_neg hcond]
  rw [mapOk_id]
  rw [if_neg (show ¬((0:ℝ) ≥ 1 / 1000000) by norm_num)]
  rw [if_neg (show ¬(|(0:ℝ)| > |(1 / 1000000 : ℝ)|) by
    rw [abs_zero]
    exact not_lt.mpr (abs_nonneg _))]
  rw [if_neg (show ¬((0:ℝ) > xmax) by norm_num [xmax])]
  rw [if_neg (show ¬((0:ℝ) < xmin) by norm_num [xmin])]
  rw [if_neg (show ¬((1 / 1000000 : ℝ) ≥ xmax) by norm_num [xmax])]
  rw [zero_mul, Int.floor_zero, hf1, sub_self, abs_zero]
  rw [if_pos (show (0:ℤ) < kmin by norm_num [kmin])]
  rw [rtexpLoop_zero uni (1 / 1000000) fuel 0]
  rfl

/-- Claim C3 (amended): the deep-right-tail routing (a > xmax), also
under the one-level symmetry fold, always hands rtexp a left bound
strictly greater than xmax > 0 -- hence nonzero, making the rtexp
acceptance condition 2a^2*e > z^2 satisfiable; the narrow-interval
fallback, however, can hand rtexp the degenerate a = 0 (see the
counterexample), and there the rtexp loop never accepts. -/
theorem dispatch_tail_rtexp_bound :
    (∀ (tab : Table) (d : ℕ) (a b mu sigma : ℝ) (p : ℝ × ℝ),
        tailArg (dispatch tab d a b mu sigma) = some p →
          xmax < p.1 ∧ p.1 ≠ 0) ∧
      (∀ (uni : ℕ → ℝ) (b : ℝ) (fuel n : ℕ),
        rtexpLoop uni 0 b fuel n = none) := by
  have hxmaxpos : (0:ℝ) < xmax := by norm_num [xmax]
  constructor
  · intro tab d
    induction d with
    | zero =>
      intro a b mu sigma p h
      simp [dispatch, tailArg] at h
    | succ d ih =>
      intro a b mu sigma p h
      simp only [dispatch] at h
      split_ifs at h <;>
        first
        | (simp only [tailArg] at h
           exact ih _ _ _ _ _ h)
        | (simp only [tailArg, Option.some.injEq] at h
           cases h
           exact ⟨by assumption, ne_of_gt (lt_trans hxmaxpos (by assumption))⟩)
        | simp [tailArg] at h
  · intro uni b
    exact rtexpLoop_zero uni b

/-- Claim C3 witness: the call with standardized bounds (4, 5) routes
to the tail sampler with left bound 4 > xmax > 0, and the rtexp loop
at a = 0 yields no sample within one iteration. -/
theorem dispatch_tail_rtexp_bound_witness :
    (xmax < (4:ℝ) ∧ (4:ℝ) ≠ 0) ∧ rtexpLoop uHalf 0 1 1 0 = none := by
  constructor
  · apply dispatch_tail_rtexp_bound.1 tabW 1 4 5 0 1 (4, 5)
    have hcond : ¬((0:ℝ) ≠ 0 ∨ (1:ℝ) ≠ 1) := by norm_num
    simp only [dispatch, if_neg hcond]
    rw [if_neg (show ¬((4:ℝ) ≥ 5) by norm_num)]
    rw [if_neg (show ¬(|(4:ℝ)| > |(5:ℝ)|) by
      rw [abs_of_pos (by norm_num : (0:ℝ) < 4),
        abs_of_pos (by norm_num : (0:ℝ) < 5)]
      norm_num)]
    rw [if_pos (show (4:ℝ) > xmax by norm_num [xmax])]
    rfl
  · exact dispatch_tail_rtexp_bound.2 uHalf 1 1 0

/-- Claim C3 counterexample: the dispatcher hands rtexp the degenerate
left bound a = 0 through the narrow-interval fallback at the
standardized interval (0, 1e-6): both bounds quantize to the same
ncell slot, so |kb - ka| = 0 < kmin and the call is routed to
rtexp(0, 1e-6). -/
theorem dispatch_passes_zero_to_rtexp :
    dispatch tabW 2 0 (1 / 1000000) 0 1 = Route.narrowExp 0 (1 / 1000000) := by
  have hcond : ¬((0:ℝ) ≠ 0 ∨ (1:ℝ) ≠ 1) := by norm_num
  simp only [dispatch, if_neg hcond]
  rw [if_neg (show ¬((0:ℝ) ≥ 1 / 1000000) by norm_num)]
  rw [if_neg (show ¬(|(0:ℝ)| > |(1 / 1000000 : ℝ)|) by
    rw [abs_zero]
    exact not_lt.mpr (abs_nonneg _))]
  rw [if_neg (show ¬((0:ℝ) > xmax) by norm_num [xmax])]
  rw [if_neg (show ¬((0:ℝ) < xmin) by norm_num [xmin])]
  rw [if_neg (show ¬((1 / 1000000 : ℝ) ≥ xmax) by norm_num [xmax])]
  rw [if_pos (show |tabW.ncell (I0 + ⌊(1 / 1000000 : ℝ) * INVH⌋) -
      tabW.ncell (I0 + ⌊(0:ℝ) * INVH⌋)| < kmin by
    norm_num [tabW, kmin])]

/-- Claim C4 (amended): (i) an interval entirely left of xmin
(b < xmin) is routed to the symmetry fold, and the folded call on
(-b, -a) is never routed to the Gaussian-tail sampler (its left bound
-b is positive); (ii) an interval entirely right of xmax (a > xmax)
is routed to the exponential-tail sampler rtexp(a, b); (iii) an
unfolded interval with xmin <= a <= xmax and at least kmin cells
between ka and kb is routed to the bulk table loop. -/
theorem dispatch_boundary_routing (tab : Table) (a b : ℝ) (hab : a < b) :
    (b < xmin →
        dispatch tab 2 a b 0 1 = Route.fold (dispatch tab 1 (-b) (-a) 0 1) ∧
          isGaussRoute (dispatch tab 1 (-b) (-a) 0 1) = false) ∧
      (a > xmax → dispatch tab 2 a b 0 1 = Route.tailExp a b) ∧
      (¬(|a| > |b|) → xmin ≤ a → a ≤ xmax →
        kmin ≤ |(if b ≥ xmax then N else tab.ncell (I0 + ⌊b * INVH⌋)) -
            tab.ncell (I0 + ⌊a * INVH⌋)| →
        dispatch tab 2 a b 0 1 =
          Route.bulk a b (tab.ncell (I0 + ⌊a * INVH⌋))
            (if b ≥ xmax then N else tab.ncell (I0 + ⌊b * INVH⌋))) := by
  have hcond : ¬((0:ℝ) ≠ 0 ∨ (1:ℝ) ≠ 1) := by norm_num
  have hxmin0 : xmin < 0 := by norm_num [xmin]
  refine ⟨?_, ?_, ?_⟩
  · intro hbx
    have hb0 : b < 0 := lt_trans hbx hxmin0
    have ha0 : a < 0 := lt_trans hab hb0
    have habs : |a| > |b| := by
      rw [abs_of_neg ha0, abs_of_neg hb0]
      linarith
    constructor
    · simp only [dispatch, if_neg hcond]
      rw [if_neg (not_le.mpr hab), if_pos habs]
    · simp only [dispatch, if_neg hcond]
      rw [if_neg (show ¬(-b ≥ -a) from not_le.mpr (neg_lt_neg hab))]
      rw [if_neg (show ¬(|-b| > |-a|) by
        rw [abs_neg, abs_neg]
        exact not_lt.mpr habs.le)]
      by_cases h3 : -b > xmax
      · rw [if_pos h3]
        rfl
      · rw [if_neg h3]
        rw [if_neg (show ¬(-b < xmin) from not_lt.mpr (by linarith))]
        by_cases h5 : |(if -a ≥ xmax then N
              else tab.ncell (I0 + ⌊-a * INVH⌋)) -
            tab.ncell (I0 + ⌊-b * INVH⌋)| < kmin
        · rw [if_pos h5]
          rfl
        · rw [if_neg h5]
          rfl
  · intro hax
    simp only [dispatch, if_neg hcond]
    rw [if_neg (not_le.mpr hab)]
    have ha0 : 0 < a := lt_trans (by norm_num [xmax]) hax
    rw [if_neg (show ¬(|a| > |b|) by
      rw [abs_of_pos ha0, abs_of_pos (lt_trans ha0 hab)]
      exact not_lt.mpr hab.le)]
    rw [if_pos hax]
  · intro hnf hxa hax hkm
    simp only [dispatch, if_neg hcond]
    rw [if_neg (not_le.mpr hab), if_neg hnf, if_neg (not_lt.mpr hax),
      if_neg (not_lt.mpr hxa), if_neg (not_lt.mpr hkm)]

/-- Claim C4 witness: at the standardized interval (-3, -2.5), which
lies entirely left of xmin, the dispatcher folds, and the folded call
on (2.5, 3) is not routed to the Gaussian-tail sampler. -/
theorem dispatch_boundary_routing_witness :
    dispatch tabW 2 (-3) (-2.5) 0 1 =
        Route.fold (dispatch tabW 1 (-(-2.5)) (-(-3)) 0 1) ∧
      isGaussRoute (dispatch tabW 1 (-(-2.5)) (-(-3)) 0 1) = false :=
  (dispatch_boundary_routing tabW (-3) (-2.5) (by norm_num)).1
    (by norm_num [xmin])

/-- Claim C4 counterexample: the interval (-3, -2.5) lies entirely
left of xmin but is NOT routed to the Gaussian-tail sampler: it is
folded, and the folded call on (2.5, 3) goes to the narrow-interval
rtexp fallback (with this table's cell lookup), never to the Gaussian
sampler. -/
theorem dispatch_left_interval_not_gauss :
    dispatch tabW 2 (-3) (-2.5) 0 1 = Route.fold (Route.narrowExp 2.5 3) ∧
      isGaussRoute (dispatch tabW 2 (-3) (-2.5) 0 1) = false := by
  have hcond : ¬((0:ℝ) ≠ 0 ∨ (1:ℝ) ≠ 1) := by norm_num
  have hstep : dispatch tabW 2 (-3) (-2.5) 0 1 =
      Route.fold (Route.narrowExp 2.5 3) := by
    simp only [dispatch, if_neg hcond]
    rw [if_neg (show ¬((-3:ℝ) ≥ -2.5) by norm_num)]
    rw [if_pos (show |(-3:ℝ)| > |(-2.5:ℝ)| by
      rw [abs_of_neg (by norm_num : (-3:ℝ) < 0),
        abs_of_neg (by norm_num : (-2.5:ℝ) < 0)]
      norm_num)]
    rw [show -(-2.5:ℝ) = 2.5 by norm_num, show -(-3:ℝ) = 3 by norm_num]
    rw [if_neg (show ¬((2.5:ℝ) ≥ 3) by norm_num)]
    rw [if_neg (show ¬(|(2.5:ℝ)| > |(3:ℝ)|) by
      rw [abs_of_pos (by norm_num : (0:ℝ) < 2.5),
        abs_of_pos (by norm_num : (0:ℝ) < 3)]
      norm_num)]
    rw [if_neg (show ¬((2.5:ℝ) > xmax) by norm_num [xmax])]
    rw [if_neg (show ¬((2.5:ℝ) < xmin) by norm_num [xmin])]
    rw [if_pos (show |(if (3:ℝ) ≥ xmax then N
          else tabW.ncell (I0 + ⌊(3:ℝ) * INVH⌋)) -
        tabW.ncell (I0 + ⌊(2.5:ℝ) * INVH⌋)| < kmin by
      rw [if_neg (show ¬((3:ℝ) ≥ xmax) by norm_num [xmax])]
      norm_num [tabW, kmin])]
  exact ⟨hstep, by rw [hstep]; rfl⟩

/-- The error branch is never taken when the standardized bounds
satisfy a' < b', at any depth: every non-error branch produces an
ofOption value or a negated recursive value, none of which is
invalid. -/
lemma rtnormAux_not_invalid (tab : Table) (uni gau : ℕ → ℝ) :
    ∀ (d : ℕ) (a b mu sigma : ℝ) (fuel : ℕ),
      (a - mu) / sigma < (b - mu) / sigma →
      rtnormAux tab uni gau d a b mu sigma fuel ≠ RtnResult.invalid := by
  intro d
  induction d with
  | zero =>
    intro a b mu sigma fuel hab h
    simp [rtnormAux] at h
  | succ d ih =>
    intro a b mu sigma fuel hab h
    simp only [rtnormAux, scale_def] at h
    rw [mapOk_eq_invalid] at h
    rw [if_neg (not_le.mpr hab)] at h
    split_ifs at h <;>
      first
      | exact ofOption_ne_invalid _ h
      | (refine negResult_ne_invalid _ ?_ h
         apply ih
         simp only [sub_zero, div_one]
         exact neg_lt_neg hab)

/-- Claim C5: a call whose standardized bounds satisfy a' >= b'
signals the InvalidInterval error (in the C code: exit(1) before any
draw); for standardized a' < b' the error branch is never taken; and
the embedding's only outcomes are invalid, the fuel artifact timeout,
or an accepted sample -- no other error state exists. -/
theorem rtnorm_invalid_iff (tab : Table) (uni gau : ℕ → ℝ)
    (a b mu sigma : ℝ) (fuel : ℕ) :
    rtnorm tab uni gau a b mu sigma fuel = RtnResult.invalid ↔
      (b - mu) / sigma ≤ (a - mu) / sigma := by
  constructor
  · intro h
    by_contra hc
    push_neg at hc
    exact rtnormAux_not_invalid tab uni gau 2 a b mu sigma fuel hc h
  · intro hle
    rw [rtnorm]
    simp only [rtnormAux, scale_def]
    rw [if_pos hle]
    rfl

/-- Claim C5 witness: rtnorm(gen, 1, 0, 0, 1) signals InvalidInterval
(a >= b) and rtnorm(gen, 0, 1, 0, 1) does not. -/
theorem rtnorm_invalid_iff_witness :
    rtnorm tabW uHalf gZero 1 0 0 1 5 = RtnResult.invalid ∧
      rtnorm tabW uHalf gZero 0 1 0 1 5 ≠ RtnResult.invalid := by
  constructor
  · exact (rtnorm_invalid_iff tabW uHalf gZero 1 0 0 1 5).mpr (by norm_num)
  · intro h
    have hc := (rtnorm_invalid_iff tabW uHalf gZero 0 1 0 1 5).mp h
    norm_num at hc

/-- When the inner interval does not fold (|a| <= |b|), the remaining
recursion depth is irrelevant: depth e+1 behaves like depth 1. -/
lemma rtnormAux_depth_one (tab : Table) (uni gau : ℕ → ℝ) (a b : ℝ)
    (fuel : ℕ) (hnf : ¬(|a| > |b|)) (e : ℕ) :
    rtnormAux tab uni gau (e + 1) a b 0 1 fuel =
      rtnormAux tab uni gau 1 a b 0 1 fuel := by
  have hcond : ¬((0:ℝ) ≠ 0 ∨ (1:ℝ) ≠ 1) := by norm_num
  simp only [rtnormAux, if_neg hcond]
  by_cases h1 : a ≥ b
  · rw [if_pos h1, if_pos h1]
  · rw [if_neg h1, if_neg h1, if_neg hnf, if_neg hnf]

/-- Claim C6: symmetry fold: a standardized call with a < b and
|a| > |b| returns the negation of the call on (-b, -a) over the same
draw streams; the inner call satisfies |-b| <= |-a|, so it does not
fold again, and its result does not depend on the remaining recursion
depth (depth exactly one). -/
theorem rtnorm_symmetry_fold (tab : Table) (uni gau : ℕ → ℝ)
    (d fuel : ℕ) (a b : ℝ) (hab : a < b) (habs : |a| > |b|) :
    rtnormAux tab uni gau (d + 1) a b 0 1 fuel =
        negResult (rtnormAux tab uni gau d (-b) (-a) 0 1 fuel) ∧
      ¬(|(-b)| > |(-a)|) ∧
      (1 ≤ d →
        rtnormAux tab uni gau d (-b) (-a) 0 1 fuel =
          rtnormAux tab uni gau 1 (-b) (-a) 0 1 fuel) := by
  have hcond : ¬((0:ℝ) ≠ 0 ∨ (1:ℝ) ≠ 1) := by norm_num
  have hnf : ¬(|(-b)| > |(-a)|) := by
    rw [abs_neg, abs_neg]
    exact not_lt.mpr habs.le
  refine ⟨?_, hnf, ?_⟩
  · conv_lhs => rw [rtnormAux]
    simp only [if_neg hcond]
    rw [mapOk_id]
    rw [if_neg (not_le.mpr hab), if_pos habs]
  · intro hd
    obtain ⟨e, rfl⟩ : ∃ e, d = e + 1 :=
      ⟨d - 1, (Nat.succ_pred_eq_of_pos hd).symm⟩
    exact rtnormAux_depth_one tab uni gau (-b) (-a) fuel hnf e

/-- Claim C6 witness: the standardized call on (-5, -4) folds to the
call on (4, 5), whose own fold condition is false and whose value does
not depend on the remaining depth. -/
theorem rtnorm_symmetry_fold_witness :
    rtnormAux tabW uHalf gZero (1 + 1) (-5) (-4) 0 1 1 =
        negResult (rtnormAux tabW uHalf gZero 1 (-(-4)) (-(-5)) 0 1 1) ∧
      ¬(|(-(-4:ℝ))| > |(-(-5:ℝ))|) ∧
      (1 ≤ 1 →
        rtnormAux tabW uHalf gZero 1 (-(-4)) (-(-5)) 0 1 1 =
          rtnormAux tabW uHalf gZero 1 (-(-4)) (-(-5)) 0 1 1) :=
  rtnorm_symmetry_fold tabW uHalf gZero 1 1 (-5) (-4) (by norm_num)
    (by rw [abs_of_neg (by norm_num : (-5:ℝ) < 0),
          abs_of_neg (by norm_num : (-4:ℝ) < 0)]
        norm_num)

/-- Claim C7: per-call scale invariance: rtnorm(gen, a, b, mu, sigma)
equals sigma * rtnorm(gen, (a-mu)/sigma, (b-mu)/sigma, 0, 1) + mu over
the same draw streams (the identity holds per call, not merely in
distribution); when (mu, sigma) = (0, 1) both the entry scaling and
the exit rescaling are the identity on the reals. -/
theorem rtnorm_scale_invariance (tab : Table) (uni gau : ℕ → ℝ)
    (a b mu sigma : ℝ) (fuel : ℕ) (hab : a < b) (hsigma : 0 < sigma) :
    rtnorm tab uni gau a b mu sigma fuel =
      mapOk (fun r => r * sigma + mu)
        (rtnorm tab uni gau ((a - mu) / sigma) ((b - mu) / sigma) 0 1 fuel) := by
  rw [rtnorm, rtnorm, scale_shift tab uni gau 2 a b mu sigma fuel]

/-- Claim C7 witness: concrete instance at (7, 13, 10, 1). -/
theorem rtnorm_scale_invariance_witness :
    rtnorm tabW uHalf gZero 7 13 10 1 1 =
      mapOk (fun r => r * 1 + 10)
        (rtnorm tabW uHalf gZero ((7 - 10) / 1) ((13 - 10) / 1) 0 1 1) :=
  rtnorm_scale_invariance tabW uHalf gZero 7 13 10 1 1 (by norm_num)
    (by norm_num)

/-- Claim C8: right-tail sentinel cell: when the bulk loop draws
k = N it sets lbound = x[xsize-1], z = -log(u1)/lbound,
e = -log(u2) from the next two uniforms, accepts exactly when
z*z <= 2e and z < b - lbound returning lbound + z, and on rejection
only the draw position advances (by the three consumed uniforms) and
the loop repeats with all other state unchanged. -/
theorem bulkLoop_sentinel (tab : Table) (uni : ℕ → ℝ) (a b : ℝ)
    (ka kb : ℤ) (fuel n : ℕ)
    (hk : ⌊uni n * ((kb : ℝ) - (ka : ℝ) + 1)⌋ + ka = N) :
    bulkLoop tab uni a b ka kb (fuel + 1) n =
      if (-Real.log (uni (n + 1)) / tab.x (xsize - 1)) *
            (-Real.log (uni (n + 1)) / tab.x (xsize - 1)) ≤
            2 * -Real.log (uni (n + 2)) ∧
          -Real.log (uni (n + 1)) / tab.x (xsize - 1) < b - tab.x (xsize - 1)
      then some (tab.x (xsize - 1) +
        -Real.log (uni (n + 1)) / tab.x (xsize - 1))
      else bulkLoop tab uni a b ka kb fuel (n + 3) := by
  simp only [bulkLoop, hk]
  rw [if_true]

/-- Claim C8 witness: with all uniforms equal to 1/2 and cells
(ka, kb) = (4000, 4001 = N), the first draw selects the sentinel cell
and the proposal is accepted: z = log(2)/xmax is small, so both
z*z <= 2e and z < 10 - xmax hold, and the sample x[xsize-1] + z is
returned. -/
theorem bulkLoop_sentinel_witness :
    bulkLoop tabW uHalf 0 10 4000 4001 (0 + 1) 0 =
      some (tabW.x (xsize - 1) +
        -Real.log (uHalf (0 + 1)) / tabW.x (xsize - 1)) := by
  have hk : ⌊uHalf 0 * ((4001 : ℝ) - (4000 : ℝ) + 1)⌋ + 4000 = N := by
    norm_num [uHalf, N]
  rw [bulkLoop_sentinel tabW uHalf 0 10 4000 4001 0 0 hk]
  have hX : tabW.x (xsize - 1) = xmax := by
    norm_num [tabW, xsize]
  have hlog : ∀ m : ℕ, -Real.log (uHalf m) = Real.log 2 := by
    intro m
    rw [show uHalf m = (2:ℝ)⁻¹ by norm_num [uHalf], Real.log_inv, neg_neg]
  have hl2a : (0.6931471803 : ℝ) < Real.log 2 := Real.log_two_gt_d9
  have hl2b : Real.log 2 < 0.6931471808 := Real.log_two_lt_d9
  rw [if_pos ?hcnd]
  case hcnd =>
    rw [hX, hlog (0 + 1), hlog (0 + 2)]
    rw [xmax]
    constructor
    · rw [div_mul_div_comm, div_le_iff₀ (by norm_num)]
      nlinarith
    · rw [div_lt_iff₀ (by norm_num)]
      nlinarith

/-- Claim C9: the lower-envelope helper yl returns the constant
0.053513975472 for the leftmost cell k = 0, the constant
0.000914116389555 for the rightmost cell k = N-1, the adjacent upper
bound yu[k-1] for every 1 <= k <= 1953, and yu[k+1] for every
1953 < k < N-1. -/
theorem yl_spec (tab : Table) (k : ℤ) :
    yl tab 0 = 0.053513975472 ∧
      yl tab (N - 1) = 0.000914116389555 ∧
      (1 ≤ k → k ≤ 1953 → yl tab k = tab.yu (k - 1)) ∧
      (1953 < k → k < N - 1 → yl tab k = tab.yu (k + 1)) := by
  refine ⟨?_, ?_, ?_, ?_⟩
  · norm_num [yl]
  · norm_num [yl, N]
  · intro h1 h2
    unfold yl
    rw [if_neg (by omega : ¬(k = 0)),
      if_neg (by simp only [N]; omega : ¬(k = N - 1)), if_pos h2]
  · intro h1 h2
    unfold yl
    rw [if_neg (by omega : ¬(k = 0)),
      if_neg (by simp only [N] at h2 ⊢; omega : ¬(k = N - 1)),
      if_neg (by omega : ¬(k ≤ 1953))]

/-- Claim C9 witness: concrete cells on each side of the split index:
yl(100) = yu[99] and yl(2000) = yu[2001]. -/
theorem yl_spec_witness :
    yl tabW 100 = tabW.yu (100 - 1) ∧ yl tabW 2000 = tabW.yu (2000 + 1) :=
  ⟨(yl_spec tabW 100).2.2.1 (by norm_num) (by norm_num),
   (yl_spec tabW 2000).2.2.2 (by norm_num) (by norm_num [N])⟩

/-- Claim C10: interior-cell fast path stays inside its cell: when
the drawn cell index k is interior (k != N, not a boundary cell) and
the fast-accept condition yu[k]*u < yl(k) holds with yu[k] > 0 and
yl(k) > 0, the loop returns r = x[k] + u*(x[k+1]-x[k])*yu[k]/yl(k),
u*yu[k]/yl(k) < 1, and x[k] <= r < x[k+1]. -/
theorem bulkLoop_interior_fast (tab : Table) (uni : ℕ → ℝ) (a b : ℝ)
    (ka kb k : ℤ) (fuel n : ℕ)
    (hk : ⌊uni n * ((kb : ℝ) - (ka : ℝ) + 1)⌋ + ka = k)
    (hkN : ¬(k = N))
    (hkint : ¬(k ≤ ka + 1 ∨ (k ≥ kb - 1 ∧ b < xmax)))
    (hacc : tab.yu k * uni (n + 1) < yl tab k)
    (hyuk : 0 < tab.yu k) (hylk : 0 < yl tab k)
    (hu1 : 0 ≤ uni (n + 1))
    (hcell : tab.x k < tab.x (k + 1)) :
    bulkLoop tab uni a b ka kb (fuel + 1) n =
        some (tab.x k + uni (n + 1) * (tab.x (k + 1) - tab.x k) *
          tab.yu k / yl tab k) ∧
      uni (n + 1) * tab.yu k / yl tab k < 1 ∧
      tab.x k ≤ tab.x k + uni (n + 1) * (tab.x (k + 1) - tab.x k) *
          tab.yu k / yl tab k ∧
      tab.x k + uni (n + 1) * (tab.x (k + 1) - tab.x k) *
          tab.yu k / yl tab k < tab.x (k + 1) := by
  have hratio : uni (n + 1) * tab.yu k / yl tab k < 1 := by
    rw [div_lt_one hylk]
    nlinarith
  have hnn : 0 ≤ uni (n + 1) * (tab.x (k + 1) - tab.x k) *
      tab.yu k / yl tab k :=
    div_nonneg (mul_nonneg (mul_nonneg hu1 (by linarith)) hyuk.le) hylk.le
  have hlt : uni (n + 1) * (tab.x (k + 1) - tab.x k) *
      tab.yu k / yl tab k < tab.x (k + 1) - tab.x k := by
    rw [div_lt_iff₀ hylk]
    nlinarith [mul_lt_mul_of_pos_left hacc
      (by linarith : (0:ℝ) < tab.x (k + 1) - tab.x k)]
  refine ⟨?_, hratio, by linarith, by linarith⟩
  simp only [bulkLoop, hk]
  rw [if_neg hkN, if_neg hkint, if_pos hacc]

/-- Claim C10 witness: with ka = 0, kb = 10 and uniforms 1/2, the
drawn cell is k = 5, interior, and the fast path accepts, returning
x[5] + (1/2)*(x[6]-x[5])*yu[5]/yl(5), which lies in [x[5], x[6]). -/
theorem bulkLoop_interior_fast_witness :
    bulkLoop tabW uHalf 0 1 0 10 (0 + 1) 0 =
        some (tabW.x 5 + uHalf (0 + 1) * (tabW.x (5 + 1) - tabW.x 5) *
          tabW.yu 5 / yl tabW 5) ∧
      uHalf (0 + 1) * tabW.yu 5 / yl tabW 5 < 1 ∧
      tabW.x 5 ≤ tabW.x 5 + uHalf (0 + 1) * (tabW.x (5 + 1) - tabW.x 5) *
          tabW.yu 5 / yl tabW 5 ∧
      tabW.x 5 + uHalf (0 + 1) * (tabW.x (5 + 1) - tabW.x 5) *
          tabW.yu 5 / yl tabW 5 < tabW.x (5 + 1) :=
  bulkLoop_interior_fast tabW uHalf 0 1 0 10 5 0 0
    (by norm_num [uHalf])
    (by norm_num [N])
    (by norm_num [xmax])
    (by norm_num [tabW, uHalf, yl, N])
    (by norm_num [tabW])
    (by norm_num [yl, tabW, N])
    (by norm_num [uHalf])
    (by simp only [tabW]
        push_cast
        linarith)

end Rtnorm
